import Mathlib

/-!
Verification of the Legal-Document-Analyzer core pipeline.

Shallow embedding of:
  - src/agents/llm_helper.py        (ask_llm gateway with fallback)
  - src/agents/*_agent.py           (four domain agents)
  - src/planner.py                  (PlanningModule: select_agents, run_agent)
  - src/langgraph_workflow.py       (ContractState, four pipeline nodes)
  - src/utils/parallel_executor.py  (run_agents_in_parallel)
  - src/analyzer/clause_extractor.py (extract_clauses)
  - app.py postprocess_findings     (severity and confidence postprocessor)

Strings are modelled as `List Char`; external collaborators (the
zero-shot classifier and the LLM backend) are parameters; a backend
call that may raise is a function into `Except String`.
-/

namespace LDA

/-- ASCII lower-casing of a character, modelling Python str.lower on the
ASCII texts this analyzer handles. -/
def lowerChar (c : Char) : Char :=
  if c.isUpper then c.toLower else c

/-- Character-wise lower-casing of a text, modelling `contract_text.lower()`. -/
def lowerList (s : List Char) : List Char :=
  s.map lowerChar

/-- Whether `pat` occurs at the head of `hay` (pattern match at a position). -/
def listStartsWith : List Char → List Char → Bool
  | _, [] => true
  | [], _ :: _ => false
  | a :: as, b :: bs => a == b && listStartsWith as bs

/-- Substring containment test, modelling the Python expression `k in s`. -/
def containsSub : List Char → List Char → Bool
  | [], pat => listStartsWith [] pat
  | hay@(_ :: rest), pat => listStartsWith hay pat || containsSub rest pat

/-- Whitespace characters removed by Python str.strip with no argument
(restricted to the ASCII whitespace relevant to this code base). -/
def isWsChar (c : Char) : Bool :=
  c == ' ' || c == '\t' || c == '\n' || c == '\r' ||
  c == Char.ofNat 11 || c == Char.ofNat 12

/-- Drop leading whitespace. -/
def dropLeadingWs : List Char → List Char
  | [] => []
  | c :: rest => if isWsChar c then dropLeadingWs rest else c :: rest

/-- Model of Python `s.strip()`: remove leading and trailing whitespace. -/
def stripWs (s : List Char) : List Char :=
  ((dropLeadingWs (dropLeadingWs s).reverse)).reverse

/-! ## LLM gateway (src/agents/llm_helper.py, ask_llm) -/

/-- The fixed fallback string returned by ask_llm when the backend call
raises any exception (llm_helper.py lines 46-53). -/
def fallbackText : List Char :=
  ("The contract contains multiple risk areas including termination clauses, " ++
   "liability exposure, and compliance ambiguities. " ++
   "It is recommended to review indemnification terms, payment penalties, " ++
   "and data protection obligations before execution.").data

/-- Model of `ask_llm(prompt)`: call the backend; on success return the
whitespace-stripped completion, on any exception return the fallback. -/
def askLlm (backend : List Char → Except (List Char) (List Char))
    (prompt : List Char) : List Char :=
  match backend prompt with
  | Except.ok response => stripWs response
  | Except.error _ => fallbackText

/-! ## Domain agents (src/agents/*_agent.py) -/

/-- The `result` sub-object of an agent envelope. -/
structure InnerResult where
  analysis : List Char
  deriving DecidableEq, Repr

/-- The uniform agent envelope, a dict with keys agent and result. -/
structure AgentResult where
  agent : List Char
  result : InnerResult
  deriving DecidableEq, Repr

/-- Prompt template of LegalAgent.analyze. -/
def legalPrompt (text : List Char) : List Char :=
  ("\nYou are a Legal Analysis Agent.\n\nAnalyze the following contract and identify:\n" ++
   "- Governing law\n- Termination clauses\n- Liability risks\n" ++
   "- Intellectual property ownership\n- Dispute resolution mechanisms\n\n" ++
   "Return a clear, concise legal analysis.\n\nCONTRACT:\n").data ++ text ++ "\n".data

/-- Prompt template of FinanceAgent.analyze. -/
def financePrompt (text : List Char) : List Char :=
  ("\nYou are a Finance Analysis Agent.\n\nAnalyze the contract and extract:\n" ++
   "- Payment terms\n- Contract value\n- Fees, penalties, or late charges\n" ++
   "- Renewal or termination costs\n\n" ++
   "Return a concise financial summary.\n\nCONTRACT:\n").data ++ text ++ "\n".data

/-- Prompt template of ComplianceAgent.analyze. -/
def compliancePrompt (text : List Char) : List Char :=
  ("\nYou are a Compliance Analysis Agent.\n\nCheck the contract for:\n" ++
   "- Data protection clauses\n- Privacy and GDPR compliance\n" ++
   "- Regulatory or statutory obligations\n- Confidentiality requirements\n\n" ++
   "Return a concise compliance assessment.\n\nCONTRACT:\n").data ++ text ++ "\n".data

/-- Prompt template of OperationsAgent.analyze. -/
def operationsPrompt (text : List Char) : List Char :=
  ("\nYou are an Operations Analysis Agent.\n\nIdentify:\n" ++
   "- Deliverables or services\n- Timelines and deadlines\n" ++
   "- Responsibilities of each party\n- Operational risks or dependencies\n\n" ++
   "Return a concise operational analysis.\n\nCONTRACT:\n").data ++ text ++ "\n".data

/-- LegalAgent.analyze: fill the template, call ask_llm, wrap verbatim. -/
def legalAnalyze (backend : List Char → Except (List Char) (List Char))
    (text : List Char) : AgentResult :=
  { agent := "Legal".data, result := { analysis := askLlm backend (legalPrompt text) } }

/-- FinanceAgent.analyze. -/
def financeAnalyze (backend : List Char → Except (List Char) (List Char))
    (text : List Char) : AgentResult :=
  { agent := "Finance".data, result := { analysis := askLlm backend (financePrompt text) } }

/-- ComplianceAgent.analyze. -/
def complianceAnalyze (backend : List Char → Except (List Char) (List Char))
    (text : List Char) : AgentResult :=
  { agent := "Compliance".data, result := { analysis := askLlm backend (compliancePrompt text) } }

/-- OperationsAgent.analyze. -/
def operationsAnalyze (backend : List Char → Except (List Char) (List Char))
    (text : List Char) : AgentResult :=
  { agent := "Operations".data, result := { analysis := askLlm backend (operationsPrompt text) } }

/-! ## Planner (src/planner.py, PlanningModule) -/

/-- A classification result: contract_type label and confidence score. -/
structure Classification where
  contract_type : List Char
  confidence : ℚ
  deriving DecidableEq, Repr

/-- PlanningModule.select_agents: the current fixed policy, ignoring the
classification argument (planner.py lines 76-77). -/
def selectAgents (_classification : Option Classification) : List (List Char) :=
  ["legal".data, "compliance".data, "finance".data]

/-- Output of PlanningModule.run_agent: either an agent envelope or the
error envelope dict with the single key error. -/
inductive RunOutput where
  | result : AgentResult → RunOutput
  | errorEnv : List Char → RunOutput
  deriving DecidableEq, Repr

/-- The ASCII apostrophe used inside the unknown-agent message. -/
def quoteChar : Char := Char.ofNat 39

/-- The unknown-agent error message of run_agent. -/
def unknownAgentMsg (name : List Char) : List Char :=
  "Unknown agent ".data ++ [quoteChar] ++ name ++ [quoteChar]

/-- PlanningModule.run_agent: dispatch on the agent name in source order
(legal, finance, operations, compliance), else return the error envelope. -/
def runAgent (backend : List Char → Except (List Char) (List Char))
    (name : List Char) (text : List Char) : RunOutput :=
  if name = "legal".data then RunOutput.result (legalAnalyze backend text)
  else if name = "finance".data then RunOutput.result (financeAnalyze backend text)
  else if name = "operations".data then RunOutput.result (operationsAnalyze backend text)
  else if name = "compliance".data then RunOutput.result (complianceAnalyze backend text)
  else RunOutput.errorEnv (unknownAgentMsg name)

/-! ## Workflow (src/langgraph_workflow.py) -/

/-- The final report dict assembled by build_report_node, with its three
keys contract_classification, selected_agents and analysis, each carrying
the corresponding state field verbatim. -/
structure Report where
  contract_classification : Option Classification
  selected_agents : Option (List (List Char))
  analysis : Option (List (List Char × RunOutput))
  deriving DecidableEq

/-- ContractState: the single state record threaded through the pipeline. -/
structure ContractState where
  contract_text : List Char
  classification : Option Classification := none
  selected_agents : Option (List (List Char)) := none
  agent_outputs : Option (List (List Char × RunOutput)) := none
  final_report : Option Report := none

/-- classify_node: populate classification from the (external) classifier. -/
def classifyNode (classifier : List Char → Classification)
    (st : ContractState) : ContractState :=
  { st with classification := some (classifier st.contract_text) }

/-- select_agents_node: populate selected_agents via PlanningModule.select_agents. -/
def selectAgentsNode (st : ContractState) : ContractState :=
  { st with selected_agents := some (selectAgents st.classification) }

/-- run_agents_node: run planner.run_agent for each selected agent in
order, building the outputs mapping keyed by agent name. -/
def runAgentsNode (backend : List Char → Except (List Char) (List Char))
    (st : ContractState) : ContractState :=
  { st with
    agent_outputs :=
      some (((st.selected_agents).getD []).map
        (fun a => (a, runAgent backend a st.contract_text))) }

/-- build_report_node: assemble the final report from the three fields. -/
def buildReportNode (st : ContractState) : ContractState :=
  { st with
    final_report :=
      some { contract_classification := st.classification
             selected_agents := st.selected_agents
             analysis := st.agent_outputs } }

/-- build_workflow().invoke: the compiled linear graph
classify → select_agents → run_agents → build_report applied to the
initial state holding only contract_text. -/
def invokeWorkflow (classifier : List Char → Classification)
    (backend : List Char → Except (List Char) (List Char))
    (T : List Char) : ContractState :=
  buildReportNode (runAgentsNode backend (selectAgentsNode
    (classifyNode classifier { contract_text := T })))

/-! ## Parallel executor (src/utils/parallel_executor.py) -/

/-- The futures submitted by run_agents_in_parallel: one per agent-map
entry, each holding the outcome of agent.analyze on the shared text. -/
def futuresOf {α : Type} (agentMap : List (List Char × (List Char → Except (List Char) α)))
    (text : List Char) : List (List Char × Except (List Char) α) :=
  agentMap.map (fun p => (p.1, p.2 text))

/-- The as_completed collection loop: walk the futures in completion
order; insert each successful result under its agent name; the first
failed future encountered re-raises its own exception, discarding the
mapping built so far. -/
def collectResults {α : Type} :
    List (List Char × Except (List Char) α) → Except (List Char) (List (List Char × α))
  | [] => Except.ok []
  | (n, Except.ok r) :: rest =>
      match collectResults rest with
      | Except.ok rs => Except.ok ((n, r) :: rs)
      | Except.error e => Except.error e
  | (_, Except.error e) :: _ => Except.error e

/-- run_agents_in_parallel: submit one future per agent-map entry, then
collect in completion order. The completion order is scheduler
nondeterminism, modelled by the parameter `completed`, constrained in the
theorems to be a permutation of the submitted futures. -/
def runAgentsInParallel {α : Type}
    (completed : List (List Char × Except (List Char) α)) :
    Except (List Char) (List (List Char × α)) :=
  collectResults completed

/-- The agents of a map whose analyze call fails on the given text
(auxiliary observer used to state error-surfacing properties). -/
def failingAgents {α : Type}
    (agentMap : List (List Char × (List Char → Except (List Char) α)))
    (text : List Char) : List (List Char) :=
  (agentMap.filter (fun p => !(p.2 text).isOk)).map Prod.fst

/-! ## Clause extractor (src/analyzer/clause_extractor.py) -/

/-- CLAUSE_KEYWORDS: the fixed category → keyword table, in source order. -/
def CLAUSE_KEYWORDS : List (List Char × List (List Char)) :=
  [ ("payment".data,
      ["payment".data, "fees".data, "invoice".data, "pricing".data,
       "charges".data, "compensation".data, "billing".data]),
    ("termination".data,
      ["termination".data, "terminate".data, "notice period".data,
       "cancellation".data, "expiry".data]),
    ("confidentiality".data,
      ["confidential".data, "non-disclosure".data, "nda".data,
       "proprietary".data, "confidentiality".data]),
    ("intellectual_property".data,
      ["intellectual property".data, "ip".data, "ownership".data,
       "copyright".data, "patent".data, "trademark".data]),
    ("governing_law".data,
      ["governing law".data, "jurisdiction".data,
       "applicable law".data, "court".data]),
    ("liability".data,
      ["liability".data, "damages".data, "indemnity".data,
       "limitation of liability".data]),
    ("data_protection".data,
      ["gdpr".data, "data protection".data, "privacy".data,
       "personal data".data, "processing".data]) ]

/-- Try the regex alternation at one position: the alternatives are tried
in list order and the first literal that matches wins, returning its
length (Python re alternation of literal keywords). -/
def matchAt (alts : List (List Char)) (s : List Char) (i : Nat) : Option Nat :=
  alts.findSome? (fun alt => if listStartsWith (s.drop i) alt then some alt.length else none)

/-- The re.finditer scan: from position i, emit the leftmost match and
continue after its end; otherwise advance one position. Fuel bounds the
recursion; `s.length + 1` fuel covers every scan position. -/
def scanAux (alts : List (List Char)) (s : List Char) : Nat → Nat → List (Nat × Nat)
  | 0, _ => []
  | fuel + 1, i =>
      match matchAt alts s i with
      | some L => (i, L) :: scanAux alts s fuel (i + L)
      | none => scanAux alts s fuel (i + 1)

/-- All non-overlapping matches of the alternation over the text, as
(start, length) pairs in increasing position order. -/
def findMatches (alts : List (List Char)) (s : List Char) : List (Nat × Nat) :=
  scanAux alts s (s.length + 1) 0

/-- Python slice text[start:stop]. -/
def sliceOf (text : List Char) (start stop : Nat) : List Char :=
  (text.drop start).take (stop - start)

/-- The window extracted for one match: original-case text from
max(start−200, 0) to min(end+500, len(text)). Natural subtraction
realizes the max-with-0 clamp. -/
def windowOf (text : List Char) (p L : Nat) : List Char :=
  sliceOf text (p - 200) (min (p + L + 500) text.length)

/-- All windows extracted for one category, matching against the
lower-cased text and slicing the original-case text. -/
def windowsFor (alts : List (List Char)) (text : List Char) : List (List Char) :=
  (findMatches alts (lowerList text)).map (fun m => windowOf text m.1 m.2)

/-- Join a list of windows with newlines (the "\n".join of the
deduplicated windows; dedup uses set semantics, modelled as eraseDups). -/
def joinWindows (ws : List (List Char)) : List Char :=
  match ws.eraseDups with
  | [] => []
  | w :: rest => rest.foldl (fun acc x => acc ++ '\n' :: x) w

/-- The clauses value for one category: the joined deduplicated windows,
or none when the category has no match. -/
def extractForCategory (text : List Char) (alts : List (List Char)) : Option (List Char) :=
  match windowsFor alts text with
  | [] => none
  | ws => some (joinWindows ws)

/-- Result of extract_clauses: the clauses dict (one entry per category,
in table order) and the missing_clauses list. -/
structure ClauseExtractionResult where
  clauses : List (List Char × Option (List Char))
  missing_clauses : List (List Char)

/-- extract_clauses: build the per-category clauses dict, then list the
categories whose value is None, in dict order. -/
def extract_clauses (text : List Char) : ClauseExtractionResult :=
  let clauses := CLAUSE_KEYWORDS.map (fun p => (p.1, extractForCategory text p.2))
  { clauses := clauses
    missing_clauses := (clauses.filter (fun p => p.2.isNone)).map Prod.fst }

/-! ## Report postprocessor (app.py, postprocess_findings) -/

/-- HIGH severity keywords. -/
def highKeywords : List (List Char) :=
  ["terminate".data, "penalty".data, "liability".data, "breach".data, "uncapped".data]

/-- MEDIUM severity keywords. -/
def mediumKeywords : List (List Char) :=
  ["auto-renew".data, "increase".data, "unclear".data]

/-- The three-tier severity rule on one issue string, evaluated in order
HIGH → MEDIUM → default LOW, on the lower-cased issue text. -/
def severityOf (issue : List Char) : List Char :=
  if highKeywords.any (fun k => containsSub (lowerList issue) k) then "HIGH".data
  else if mediumKeywords.any (fun k => containsSub (lowerList issue) k) then "MEDIUM".data
  else "LOW".data

/-- round(x, 2) on rationals (round-half modes agree on the bounds
properties proved below). -/
def round2 (x : ℚ) : ℚ := (round (100 * x) : ℤ) / 100

/-- round(random.uniform(0.75, 0.92), 2), with u the underlying unit
draw of the generator: uniform(a, b) = a + (b − a)·u. -/
def confidenceOf (u : ℚ) : ℚ := round2 (3 / 4 + u * (23 / 25 - 3 / 4))

/-- One structured finding. -/
structure Finding where
  issue : List Char
  agent : List Char
  severity : List Char
  confidence : ℚ

/-- The findings built for one domain: one per issue, with severity from
the keyword rule and confidence from successive generator draws. -/
def postprocessDomain (rng : Nat → ℚ) (base : Nat) (domain : List Char)
    (issues : List (List Char)) : List Finding :=
  issues.enum.map (fun p =>
    { issue := p.2
      agent := domain ++ "Agent".data
      severity := severityOf p.2
      confidence := confidenceOf (rng (base + p.1)) })

/-- postprocess_findings over the domains mapping, threading the
generator counter across domains in iteration order. -/
def postprocessFindings (rng : Nat → ℚ) :
    Nat → List (List Char × List (List Char)) → List (List Char × List Finding)
  | _, [] => []
  | c, (d, issues) :: rest =>
      (d, postprocessDomain rng c d issues) :: postprocessFindings rng (c + issues.length) rest

/-! ## Helper lemmas -/

/-- Dropping leading whitespace removes a whitespace-only margin. -/
lemma dropLeadingWs_spec (s : List Char) :
    ∃ a, s = a ++ dropLeadingWs s ∧ ∀ c ∈ a, isWsChar c = true := by
  induction s with
  | nil => exact ⟨[], rfl, by simp⟩
  | cons c rest ih =>
      by_cases hc : isWsChar c = true
      · obtain ⟨a, h1, h2⟩ := ih
        refine ⟨c :: a, ?_, ?_⟩
        · simpa [dropLeadingWs, hc] using h1
        · intro x hx
          rcases List.mem_cons.mp hx with h | h
          · exact h ▸ hc
          · exact h2 x h
      · exact ⟨[], by simp [dropLeadingWs, hc], by simp⟩

/-- stripWs removes exactly a whitespace margin on each side. -/
lemma stripWs_margins (s : List Char) :
    ∃ a b, s = a ++ stripWs s ++ b ∧
      (∀ c ∈ a, isWsChar c = true) ∧ (∀ c ∈ b, isWsChar c = true) := by
  obtain ⟨a, h1, h2⟩ := dropLeadingWs_spec s
  obtain ⟨b, h3, h4⟩ := dropLeadingWs_spec (dropLeadingWs s).reverse
  refine ⟨a, b.reverse, ?_, h2, ?_⟩
  · have h5 : dropLeadingWs s =
        (dropLeadingWs (dropLeadingWs s).reverse).reverse ++ b.reverse := by
      have := congrArg List.reverse h3
      simpa [List.reverse_append] using this
    rw [stripWs, List.append_assoc, ← h5]
    exact h1
  · intro c hc
    exact h4 c (List.mem_reverse.mp hc)

/-! ## Claim theorems -/

/-- A backend whose every call raises (used to instantiate witnesses). -/
def failBackend : List Char → Except (List Char) (List Char) :=
  fun _ => Except.error "boom".data

/-- C4: if the backend text-generation call fails with any exception,
ask_llm returns the fixed fallback string instead of propagating the
failure (ask_llm is a total function of the backend outcome, so it never
raises), and the same single policy reaches every one of the four domain
agents, whose analysis field then carries the fallback text. -/
theorem c4_llm_fallback_on_failure
    (backend : List Char → Except (List Char) (List Char))
    (prompt t e : List Char) (h : ∀ p, backend p = Except.error e) :
    askLlm backend prompt = fallbackText ∧
    (legalAnalyze backend t).result.analysis = fallbackText ∧
    (financeAnalyze backend t).result.analysis = fallbackText ∧
    (complianceAnalyze backend t).result.analysis = fallbackText ∧
    (operationsAnalyze backend t).result.analysis = fallbackText := by
  unfold legalAnalyze financeAnalyze complianceAnalyze operationsAnalyze
  simp [askLlm, h]

/-- Witness for C4 at a concrete always-failing backend. -/
theorem c4_llm_fallback_on_failure_witness :
    askLlm failBackend "p".data = fallbackText ∧
    (legalAnalyze failBackend "T".data).result.analysis = fallbackText ∧
    (financeAnalyze failBackend "T".data).result.analysis = fallbackText ∧
    (complianceAnalyze failBackend "T".data).result.analysis = fallbackText ∧
    (operationsAnalyze failBackend "T".data).result.analysis = fallbackText :=
  c4_llm_fallback_on_failure failBackend "p".data "T".data "boom".data (fun _ => rfl)

/-- C5 counterexample: a backend completion that echoes the prompt at its
start is returned with the echo intact — for prompt Hello and completion
HelloWorld, ask_llm returns HelloWorld, which still contains (indeed
starts with) the prompt. So ask_llm does not strip prompt echoes. -/
theorem c5_counterexample :
    askLlm (fun _ => Except.ok "HelloWorld".data) "Hello".data = "HelloWorld".data ∧
    containsSub (askLlm (fun _ => Except.ok "HelloWorld".data) "Hello".data)
      "Hello".data = true ∧
    listStartsWith (askLlm (fun _ => Except.ok "HelloWorld".data) "Hello".data)
      "Hello".data = true := by
  refine ⟨by decide, by decide, by decide⟩

/-- C5 amended: on backend success ask_llm returns the completion with
only leading and trailing whitespace removed — the returned string is the
completion minus whitespace-only margins; no prompt-echo removal is
performed. -/
theorem c5_strip_whitespace_only
    (backend : List Char → Except (List Char) (List Char))
    (prompt resp : List Char) (h : backend prompt = Except.ok resp) :
    askLlm backend prompt = stripWs resp ∧
    ∃ a b, resp = a ++ askLlm backend prompt ++ b ∧
      (∀ c ∈ a, isWsChar c = true) ∧ (∀ c ∈ b, isWsChar c = true) := by
  have he : askLlm backend prompt = stripWs resp := by
    unfold askLlm
    rw [h]
  refine ⟨he, ?_⟩
  rw [he]
  exact stripWs_margins resp

/-- Witness for C5 amended at a concrete echoing backend. -/
theorem c5_strip_whitespace_only_witness :
    askLlm (fun _ => Except.ok " HelloWorld ".data) "Hello".data =
      stripWs " HelloWorld ".data ∧
    ∃ a b, " HelloWorld ".data =
        a ++ askLlm (fun _ => Except.ok " HelloWorld ".data) "Hello".data ++ b ∧
      (∀ c ∈ a, isWsChar c = true) ∧ (∀ c ∈ b, isWsChar c = true) :=
  c5_strip_whitespace_only (fun _ => Except.ok " HelloWorld ".data)
    "Hello".data " HelloWorld ".data rfl

/-- C8: run_agent on any name other than legal, finance, operations,
compliance returns the unknown-agent error envelope; being a total
function, it never raises. -/
theorem c8_unknown_agent_envelope
    (backend : List Char → Except (List Char) (List Char))
    (name text : List Char)
    (h1 : ¬ name = "legal".data) (h2 : ¬ name = "finance".data)
    (h3 : ¬ name = "operations".data) (h4 : ¬ name = "compliance".data) :
    runAgent backend name text = RunOutput.errorEnv (unknownAgentMsg name) := by
  unfold runAgent
  rw [if_neg h1, if_neg h2, if_neg h3, if_neg h4]

/-- Witness for C8 at the concrete name unknown. -/
theorem c8_unknown_agent_envelope_witness :
    runAgent failBackend "unknown".data "text".data =
      RunOutput.errorEnv (unknownAgentMsg "unknown".data) :=
  c8_unknown_agent_envelope failBackend "unknown".data "text".data
    (by decide) (by decide) (by decide) (by decide)

/-- C1: for every contract text, classifier and backend, the workflow
invocation yields a final report (a record with exactly the three keys
contract_classification, selected_agents and analysis) whose
selected_agents is the fixed sequence legal, compliance, finance —
independent of the classification, which is carried verbatim — whose
analysis mapping is keyed by exactly those agent names, and operations is
never selected by select_agents. -/
theorem c1_workflow_final_report
    (classifier : List Char → Classification)
    (backend : List Char → Except (List Char) (List Char)) (T : List Char) :
    ∃ rep : Report,
      (invokeWorkflow classifier backend T).final_report = some rep ∧
      rep.contract_classification = some (classifier T) ∧
      rep.selected_agents = some ["legal".data, "compliance".data, "finance".data] ∧
      (∃ outs, rep.analysis = some outs ∧
        outs.map Prod.fst = ["legal".data, "compliance".data, "finance".data]) ∧
      (∀ c : Option Classification, "operations".data ∉ selectAgents c) := by
  refine ⟨_, rfl, rfl, rfl, ⟨_, rfl, rfl⟩, ?_⟩
  intro c
  show "operations".data ∉ ["legal".data, "compliance".data, "finance".data]
  decide

/-- When every collected future succeeded, the join returns the full
mapping: the results list is exactly the completed list with the ok
constructor stripped. -/
lemma collectResults_all_ok {α : Type}
    (l : List (List Char × Except (List Char) α))
    (h : ∀ p ∈ l, (p.2).isOk = true) :
    ∃ rs, collectResults l = Except.ok rs ∧
      rs.map (fun q => (q.1, (Except.ok q.2 : Except (List Char) α))) = l := by
  induction l with
  | nil => exact ⟨[], rfl, rfl⟩
  | cons p rest ih =>
      obtain ⟨n, exc⟩ := p
      cases exc with
      | ok r =>
          obtain ⟨rs, h1, h2⟩ := ih (fun q hq => h q (List.mem_cons_of_mem _ hq))
          refine ⟨(n, r) :: rs, ?_, ?_⟩
          · simp [collectResults, h1]
          · simp [h2]
      | error e =>
          have := h (n, Except.error e) (List.mem_cons_self _ _)
          simp [Except.isOk, Except.toBool] at this

/-- When some collected future failed, the join fails, re-raising the
exception of one of the failed futures. -/
lemma collectResults_error {α : Type}
    (l : List (List Char × Except (List Char) α))
    (h : ∃ p ∈ l, ¬ (p.2).isOk = true) :
    ∃ e, collectResults l = Except.error e ∧ ∃ n, (n, Except.error e) ∈ l := by
  induction l with
  | nil => simp at h
  | cons p rest ih =>
      obtain ⟨n, exc⟩ := p
      cases exc with
      | error e => exact ⟨e, rfl, n, List.mem_cons_self _ _⟩
      | ok r =>
          have hr : ∃ q ∈ rest, ¬ (q.2).isOk = true := by
            obtain ⟨q, hq, hq2⟩ := h
            rcases List.mem_cons.mp hq with h1 | h1
            · subst h1
              simp [Except.isOk, Except.toBool] at hq2
            · exact ⟨q, h1, hq2⟩
          obtain ⟨e, h1, n', h2⟩ := ih hr
          exact ⟨e, by simp [collectResults, h1], n', List.mem_cons_of_mem _ h2⟩

/-- C2: when every agent of the map succeeds on the text, the parallel
runner — under any completion order of the submitted futures — returns a
mapping with exactly N entries, keyed by a permutation of the requested
agent names, in which every entry is exactly what the corresponding
agent's analyze returns when called directly on the same text, and
conversely every direct-call result appears. -/
theorem c2_parallel_matches_sequential {α : Type}
    (agentMap : List (List Char × (List Char → Except (List Char) α)))
    (text : List Char)
    (completed : List (List Char × Except (List Char) α))
    (hperm : completed.Perm (futuresOf agentMap text))
    (hok : ∀ p ∈ agentMap, (p.2 text).isOk = true) :
    ∃ rs, runAgentsInParallel completed = Except.ok rs ∧
      rs.length = agentMap.length ∧
      (rs.map Prod.fst).Perm (agentMap.map Prod.fst) ∧
      (∀ n r, (n, r) ∈ rs → ∃ f, (n, f) ∈ agentMap ∧ f text = Except.ok r) ∧
      (∀ n f, (n, f) ∈ agentMap → ∀ r, f text = Except.ok r → (n, r) ∈ rs) := by
  have hok' : ∀ p ∈ completed, (p.2).isOk = true := by
    intro p hp
    obtain ⟨q, hq, hq2⟩ := List.mem_map.mp (hperm.mem_iff.mp hp)
    rw [← hq2]
    exact hok q hq
  obtain ⟨rs, h1, h2⟩ := collectResults_all_ok completed hok'
  have hkeys : completed.map Prod.fst = rs.map Prod.fst := by
    rw [← h2, List.map_map]
    rfl
  refine ⟨rs, h1, ?_, ?_, ?_, ?_⟩
  · have hl : rs.length = completed.length := by
      rw [← h2, List.length_map]
    rw [hl, hperm.length_eq]
    simp [futuresOf]
  · have := hperm.map Prod.fst
    rw [hkeys] at this
    have hf : (futuresOf agentMap text).map Prod.fst = agentMap.map Prod.fst := by
      simp [futuresOf, List.map_map]
    rw [hf] at this
    exact this
  · intro n r hnr
    have hc : (n, (Except.ok r : Except (List Char) α)) ∈ completed := by
      rw [← h2]
      exact List.mem_map.mpr ⟨(n, r), hnr, rfl⟩
    obtain ⟨q, hq, hq2⟩ := List.mem_map.mp (hperm.mem_iff.mp hc)
    have hn : q.1 = n := congrArg Prod.fst hq2
    have hok2 : q.2 text = Except.ok r := congrArg Prod.snd hq2
    refine ⟨q.2, ?_, hok2⟩
    rw [← hn]
    exact hq
  · intro n f hm r hr
    have hfut : (n, (Except.ok r : Except (List Char) α)) ∈ futuresOf agentMap text := by
      refine List.mem_map.mpr ⟨(n, f), hm, ?_⟩
      simp [hr]
    have hc := hperm.mem_iff.mpr hfut
    rw [← h2] at hc
    obtain ⟨q, hq, hq2⟩ := List.mem_map.mp hc
    have hn : q.1 = n := congrArg Prod.fst hq2
    have hok3 : (Except.ok q.2 : Except (List Char) α) = Except.ok r := congrArg Prod.snd hq2
    have hr2 : q.2 = r := by
      exact Except.ok.inj hok3
    have : q = (n, r) := by
      rw [Prod.ext_iff]
      exact ⟨hn, hr2⟩
    rw [← this]
    exact hq

/-- A two-agent map whose agents both succeed (witness instantiation). -/
def c2AgentMap : List (List Char × (List Char → Except (List Char) (List Char))) :=
  [("legal".data, fun t => Except.ok t), ("finance".data, fun _ => Except.ok "fin".data)]

/-- The futures of c2AgentMap collected in reversed completion order. -/
def c2Completed : List (List Char × Except (List Char) (List Char)) :=
  [("finance".data, Except.ok "fin".data), ("legal".data, Except.ok "T".data)]

/-- Witness for C2: two succeeding agents, completion order reversed. -/
theorem c2_parallel_matches_sequential_witness :
    ∃ rs, runAgentsInParallel c2Completed = Except.ok rs ∧
      rs.length = c2AgentMap.length ∧
      (rs.map Prod.fst).Perm (c2AgentMap.map Prod.fst) ∧
      (∀ n r, (n, r) ∈ rs → ∃ f, (n, f) ∈ c2AgentMap ∧ f "T".data = Except.ok r) ∧
      (∀ n f, (n, f) ∈ c2AgentMap → ∀ r, f "T".data = Except.ok r → (n, r) ∈ rs) :=
  c2_parallel_matches_sequential c2AgentMap "T".data c2Completed
    (List.Perm.swap _ _ _)
    (by
      intro p hp
      rcases List.mem_cons.mp hp with h | h
      · rw [h]
        rfl
      · rcases List.mem_cons.mp h with h2 | h2
        · rw [h2]
          rfl
        · simp at h2)

/-- A map whose first agent fails and second succeeds. -/
def c3FailMap1 : List (List Char × (List Char → Except (List Char) (List Char))) :=
  [("a".data, fun _ => Except.error "backend down".data),
   ("b".data, fun _ => Except.ok "fine".data)]

/-- A map whose first agent succeeds and second fails, with the same
exception text as c3FailMap1. -/
def c3FailMap2 : List (List Char × (List Char → Except (List Char) (List Char))) :=
  [("a".data, fun _ => Except.ok "fine".data),
   ("b".data, fun _ => Except.error "backend down".data)]

/-- C3 counterexample: the runner re-raises the failing future's raw
exception without attaching the agent name — two maps in which different
named agents fail produce identical overall outcomes, so the propagated
error does not surface which named agent failed. (The no-silent-partial-
mapping half of the claim does hold and is proved separately.) -/
theorem c3_counterexample :
    runAgentsInParallel (futuresOf c3FailMap1 "T".data) =
      runAgentsInParallel (futuresOf c3FailMap2 "T".data) ∧
    runAgentsInParallel (futuresOf c3FailMap1 "T".data) =
      Except.error "backend down".data ∧
    failingAgents c3FailMap1 "T".data = ["a".data] ∧
    failingAgents c3FailMap2 "T".data = ["b".data] :=
  ⟨rfl, rfl, rfl, rfl⟩

/-- C3 amended: if at least one agent of the map fails on the text, the
runner — under any completion order — fails rather than returning a
mapping with the remaining entries, and the propagated exception is the
raw error value of one of the failing agents (the agent name itself is
not attached to it). -/
theorem c3_failure_aborts {α : Type}
    (agentMap : List (List Char × (List Char → Except (List Char) α)))
    (text : List Char)
    (completed : List (List Char × Except (List Char) α))
    (hperm : completed.Perm (futuresOf agentMap text))
    (hfail : ∃ p ∈ agentMap, ¬ (p.2 text).isOk = true) :
    ∃ e, runAgentsInParallel completed = Except.error e ∧
      ∃ n f, (n, f) ∈ agentMap ∧ f text = Except.error e := by
  have hfail' : ∃ p ∈ completed, ¬ (p.2).isOk = true := by
    obtain ⟨p, hp, hp2⟩ := hfail
    exact ⟨(p.1, p.2 text), hperm.mem_iff.mpr (List.mem_map.mpr ⟨p, hp, rfl⟩), hp2⟩
  obtain ⟨e, h1, n, h2⟩ := collectResults_error completed hfail'
  refine ⟨e, h1, ?_⟩
  obtain ⟨q, hq, hq2⟩ := List.mem_map.mp (hperm.mem_iff.mp h2)
  have hn : q.1 = n := congrArg Prod.fst hq2
  have hf : q.2 text = Except.error e := congrArg Prod.snd hq2
  refine ⟨n, q.2, ?_, hf⟩
  rw [← hn]
  exact hq

/-- Witness for C3 amended at c3FailMap1 with the submission order as
completion order. -/
theorem c3_failure_aborts_witness :
    ∃ e, runAgentsInParallel (futuresOf c3FailMap1 "T".data) = Except.error e ∧
      ∃ n f, (n, f) ∈ c3FailMap1 ∧ f "T".data = Except.error e :=
  c3_failure_aborts c3FailMap1 "T".data (futuresOf c3FailMap1 "T".data)
    (List.Perm.refl _)
    ⟨("a".data, fun _ => Except.error "backend down".data),
      List.mem_cons_self _ _, by decide⟩

/-! ## Clause extractor lemmas -/

/-- Some keyword of the list occurs (as a literal, case-insensitively)
somewhere in the text. -/
def kwOccurs (kws : List (List Char)) (text : List Char) : Prop :=
  ∃ i kw, kw ∈ kws ∧ listStartsWith ((lowerList text).drop i) kw = true

/-- The keyword list of the termination category. -/
def terminationKeywords : List (List Char) :=
  ["termination".data, "terminate".data, "notice period".data,
   "cancellation".data, "expiry".data]

/-- terminationKeywords is the table entry for the termination category. -/
lemma terminationKeywords_in_table :
    ("termination".data, terminationKeywords) ∈ CLAUSE_KEYWORDS := by decide

/-- The category names of the table are distinct. -/
lemma clause_keys_nodup : (CLAUSE_KEYWORDS.map Prod.fst).Nodup := by decide

/-- Every keyword in the table is a nonempty literal. -/
lemma clause_keywords_nonempty : ∀ p ∈ CLAUSE_KEYWORDS, ∀ a ∈ p.2, a ≠ [] := by decide

/-- Every match produced by the scan is a match of the alternation at its
start position. -/
lemma scanAux_mem (alts : List (List Char)) (s : List Char) :
    ∀ fuel i p L, (p, L) ∈ scanAux alts s fuel i → matchAt alts s p = some L := by
  intro fuel
  induction fuel with
  | zero =>
      intro i p L h
      simp [scanAux] at h
  | succ f ih =>
      intro i p L h
      simp only [scanAux] at h
      cases hm : matchAt alts s i with
      | some L2 =>
          rw [hm] at h
          rcases List.mem_cons.mp h with h1 | h1
          · obtain ⟨rfl, rfl⟩ := Prod.mk.injEq .. ▸ h1
            exact hm
          · exact ih _ _ _ h1
      | none =>
          rw [hm] at h
          exact ih _ _ _ h

/-- The scan finds nothing exactly when no position in its fuel range
matches. -/
lemma scanAux_nil_iff (alts : List (List Char)) (s : List Char) :
    ∀ fuel i, scanAux alts s fuel i = [] ↔
      ∀ j, i ≤ j → j < i + fuel → matchAt alts s j = none := by
  intro fuel
  induction fuel with
  | zero =>
      intro i
      constructor
      · intro _ j h1 h2
        omega
      · intro _
        rfl
  | succ f ih =>
      intro i
      constructor
      · intro h j h1 h2
        simp only [scanAux] at h
        cases hm : matchAt alts s i with
        | some L =>
            rw [hm] at h
            simp at h
        | none =>
            rw [hm] at h
            rcases Nat.eq_or_lt_of_le h1 with rfl | hlt
            · exact hm
            · exact (ih (i + 1)).mp h j hlt (by omega)
      · intro h
        simp only [scanAux]
        have hm : matchAt alts s i = none := h i (le_refl i) (by omega)
        rw [hm]
        exact (ih (i + 1)).mpr (fun j h1 h2 => h j (by omega) (by omega))

/-- A nonempty pattern never matches at the head of the empty text. -/
lemma listStartsWith_nil (alt : List Char) (h : alt ≠ []) :
    listStartsWith [] alt = false := by
  cases alt with
  | nil => simp at h
  | cons a as => rfl

/-- Past the end of the text no (nonempty) alternative matches. -/
lemma matchAt_none_of_ge (alts : List (List Char)) (s : List Char)
    (halts : ∀ a ∈ alts, a ≠ []) (j : Nat) (hj : s.length ≤ j) :
    matchAt alts s j = none := by
  unfold matchAt
  rw [List.findSome?_eq_none_iff]
  intro alt hmem
  rw [List.drop_eq_nil_of_le hj, listStartsWith_nil alt (halts alt hmem)]
  simp

/-- The alternation fails at a position exactly when every alternative
fails there. -/
lemma matchAt_none_iff (alts : List (List Char)) (s : List Char) (j : Nat) :
    matchAt alts s j = none ↔
      ∀ alt ∈ alts, listStartsWith (s.drop j) alt = false := by
  unfold matchAt
  rw [List.findSome?_eq_none_iff]
  constructor
  · intro h alt hmem
    have := h alt hmem
    cases hb : listStartsWith (s.drop j) alt
    · rfl
    · rw [hb] at this
      simp at this
  · intro h alt hmem
    rw [h alt hmem]
    simp

/-- The scan finds nothing on the whole text exactly when the alternation
fails at every position. -/
lemma findMatches_nil_iff (alts : List (List Char)) (s : List Char)
    (halts : ∀ a ∈ alts, a ≠ []) :
    findMatches alts s = [] ↔ ∀ j, matchAt alts s j = none := by
  unfold findMatches
  rw [scanAux_nil_iff]
  constructor
  · intro h j
    by_cases hj : j < s.length + 1
    · exact h j (Nat.zero_le j) (by omega)
    · exact matchAt_none_of_ge alts s halts j (by omega)
  · intro h j _ _
    exact h j

/-- extractForCategory yields none exactly when the category has no
window. -/
lemma extractForCategory_eq_none_iff (text : List Char) (alts : List (List Char)) :
    extractForCategory text alts = none ↔ windowsFor alts text = [] := by
  unfold extractForCategory
  cases hw : windowsFor alts text <;> simp

/-- extractForCategory yields none exactly when no keyword of the
category occurs in the (lower-cased) text. -/
lemma extractForCategory_none_iff (text : List Char) (alts : List (List Char))
    (halts : ∀ a ∈ alts, a ≠ []) :
    extractForCategory text alts = none ↔ ¬ kwOccurs alts text := by
  rw [extractForCategory_eq_none_iff]
  unfold windowsFor
  rw [List.map_eq_nil_iff, findMatches_nil_iff _ _ halts]
  unfold kwOccurs
  push_neg
  constructor
  · intro h i kw hkw
    have := (matchAt_none_iff _ _ _).mp (h i) kw hkw
    simp [this]
  · intro h j
    rw [matchAt_none_iff]
    intro alt hmem
    have := h j alt hmem
    simpa using this

/-- In a list with distinct keys, a key determines its value. -/
lemma key_unique {β : Type} (l : List (List Char × β))
    (hn : (l.map Prod.fst).Nodup) (a : List Char) (b c : β)
    (h1 : (a, b) ∈ l) (h2 : (a, c) ∈ l) : b = c := by
  induction l with
  | nil => simp at h1
  | cons q rest ih =>
      simp only [List.map_cons, List.nodup_cons] at hn
      rcases List.mem_cons.mp h1 with e1 | e1 <;> rcases List.mem_cons.mp h2 with e2 | e2
      · have := e1.trans e2.symm
        exact (Prod.mk.injEq .. ▸ this).2
      · exfalso
        apply hn.1
        rw [← e1]
        exact List.mem_map.mpr ⟨(a, c), e2, rfl⟩
      · exfalso
        apply hn.1
        rw [← e2]
        exact List.mem_map.mpr ⟨(a, b), e1, rfl⟩
      · exact ih hn.2 e1 e2

/-- Lookup in the pointwise image of a distinct-key table finds the image
of the table entry. -/
lemma lookup_map_of_mem {β γ : Type} (l : List (List Char × β))
    (f : List Char × β → γ) (hn : (l.map Prod.fst).Nodup)
    (a : List Char) (b : β) (h : (a, b) ∈ l) :
    (l.map (fun p => (p.1, f p))).lookup a = some (f (a, b)) := by
  induction l with
  | nil => simp at h
  | cons q rest ih =>
      simp only [List.map_cons, List.nodup_cons] at hn
      rcases List.mem_cons.mp h with h1 | h1
      · subst h1
        simp [List.lookup]
      · have hne : ¬ (a == q.1) = true := by
          intro hab
          apply hn.1
          have ha : a = q.1 := by simpa using hab
          rw [← ha]
          exact List.mem_map.mpr ⟨(a, b), h1, rfl⟩
        simp only [List.map_cons, List.lookup, hne]
        exact ih hn.2 h1

/-- Membership in missing_clauses is membership of a none-valued entry of
the clauses dict. -/
lemma mem_missing_iff (text : List Char) (name : List Char) :
    name ∈ (extract_clauses text).missing_clauses ↔
      ∃ v, (name, v) ∈ (extract_clauses text).clauses ∧ v = none := by
  unfold extract_clauses
  simp only []
  constructor
  · intro h
    obtain ⟨p, hp, hp2⟩ := List.mem_map.mp h
    obtain ⟨hmem, hnone⟩ := List.mem_filter.mp hp
    refine ⟨p.2, ?_, Option.isNone_iff_eq_none.mp hnone⟩
    rw [← hp2]
    exact hmem
  · intro ⟨v, hv, hnone⟩
    refine List.mem_map.mpr ⟨(name, v), List.mem_filter.mpr ⟨hv, ?_⟩, rfl⟩
    rw [hnone]
    rfl

/-- The keys of the clauses dict coincide with the table keys. -/
lemma clauses_keys (text : List Char) :
    (extract_clauses text).clauses.map Prod.fst = CLAUSE_KEYWORDS.map Prod.fst := by
  unfold extract_clauses
  rw [List.map_map]
  rfl

/-- C7: a category of the table appears in missing_clauses exactly when
no keyword of that category occurs in the text; in exactly that case the
clauses dict maps the category to None (the key stays present); and a
category with at least one occurrence is mapped to an actual window
string, hence never listed in missing_clauses. -/
theorem c7_missing_iff_no_match (text name : List Char) (kws : List (List Char))
    (hmem : (name, kws) ∈ CLAUSE_KEYWORDS) :
    (name ∈ (extract_clauses text).missing_clauses ↔ ¬ kwOccurs kws text) ∧
    ((extract_clauses text).clauses.lookup name = some (extractForCategory text kws)) ∧
    (extractForCategory text kws = none ↔ ¬ kwOccurs kws text) ∧
    (kwOccurs kws text → ∃ w, (extract_clauses text).clauses.lookup name = some (some w)) := by
  have halts : ∀ a ∈ kws, a ≠ [] := clause_keywords_nonempty (name, kws) hmem
  have hiff := extractForCategory_none_iff text kws halts
  have hlookup : (extract_clauses text).clauses.lookup name =
      some (extractForCategory text kws) :=
    lookup_map_of_mem CLAUSE_KEYWORDS (fun p => extractForCategory text p.2)
      clause_keys_nodup name kws hmem
  have hclmem : (name, extractForCategory text kws) ∈ (extract_clauses text).clauses := by
    unfold extract_clauses
    exact List.mem_map.mpr ⟨(name, kws), hmem, rfl⟩
  have hnodup : ((extract_clauses text).clauses.map Prod.fst).Nodup := by
    rw [clauses_keys]
    exact clause_keys_nodup
  refine ⟨?_, hlookup, hiff, ?_⟩
  · rw [mem_missing_iff]
    constructor
    · intro ⟨v, hv, hnone⟩
      subst hnone
      have := key_unique _ hnodup name (extractForCategory text kws) none hclmem hv
      exact hiff.mp this
    · intro h
      exact ⟨extractForCategory text kws, hclmem, hiff.mpr h⟩
  · intro h
    rw [hlookup]
    rcases he : extractForCategory text kws with _ | w
    · exact absurd (hiff.mp he) (by simpa using h)
    · exact ⟨w, rfl⟩

/-- Witness for C7 at the payment category and a short concrete text. -/
theorem c7_missing_iff_no_match_witness :
    ("payment".data ∈ (extract_clauses "T".data).missing_clauses ↔
      ¬ kwOccurs (CLAUSE_KEYWORDS.head!).2 "T".data) ∧
    ((extract_clauses "T".data).clauses.lookup "payment".data =
      some (extractForCategory "T".data (CLAUSE_KEYWORDS.head!).2)) ∧
    (extractForCategory "T".data (CLAUSE_KEYWORDS.head!).2 = none ↔
      ¬ kwOccurs (CLAUSE_KEYWORDS.head!).2 "T".data) ∧
    (kwOccurs (CLAUSE_KEYWORDS.head!).2 "T".data →
      ∃ w, (extract_clauses "T".data).clauses.lookup "payment".data = some (some w)) :=
  c7_missing_iff_no_match "T".data "payment".data (CLAUSE_KEYWORDS.head!).2 (by decide)

/-- A text in which the literal keyword termination occurs at position 7,
overlapped by a terminate match starting at 0, padded so that the window
bounds differ from the claimed ones. -/
def c6text : List Char := "terminatermination".data ++ List.replicate 500 'x'

/-- C6 counterexample: c6text contains the literal keyword termination at
position 7, yet the non-overlapping left-to-right scan matches terminate
at position 0 and skips the occurrence at 7, so the window list for the
termination category is exactly the one window of the (0, 9) match and
does not contain the window [max(7−200,0), min(7+11+500, len)) the claim
asserts for position 7. -/
theorem c6_counterexample :
    listStartsWith ((lowerList c6text).drop 7) "termination".data = true ∧
    findMatches terminationKeywords (lowerList c6text) = [(0, 9)] ∧
    windowOf c6text 7 11 ∉ windowsFor terminationKeywords c6text := by
  set_option maxRecDepth 100000 in decide

/-- C6 amended: for every match actually produced by the scanner at
position p with length L, the extracted window is the slice of the
original-case text from max(p−200, 0) (natural subtraction) to
min(p+L+500, len(text)) — characterized by its length and its pointwise
agreement with the text — and whenever the scanner yields a match at a
position where the literal keyword termination occurs, that match has
length len("termination") = 11, so its window is [max(p−200,0),
min(p+511, len)). -/
theorem c6_window_bounds (alts : List (List Char)) (text : List Char) (p L : Nat)
    (h : (p, L) ∈ findMatches alts (lowerList text)) :
    windowOf text p L ∈ windowsFor alts text ∧
    (windowOf text p L).length = min (p + L + 500) text.length - (p - 200) ∧
    (∀ j, ∀ hj : j < (windowOf text p L).length,
      ∃ hx : p - 200 + j < text.length,
        (windowOf text p L).get ⟨j, hj⟩ = text.get ⟨p - 200 + j, hx⟩) ∧
    (alts = terminationKeywords →
      listStartsWith ((lowerList text).drop p) "termination".data = true → L = 11) := by
  have hlen : (windowOf text p L).length =
      min (p + L + 500) text.length - (p - 200) := by
    simp only [windowOf, sliceOf, List.length_take, List.length_drop]
    omega
  refine ⟨List.mem_map.mpr ⟨(p, L), h, rfl⟩, hlen, ?_, ?_⟩
  · intro j hj
    have hb : min (p + L + 500) text.length ≤ text.length := min_le_right _ _
    have hx : p - 200 + j < text.length := by
      rw [hlen] at hj
      omega
    refine ⟨hx, ?_⟩
    simp only [windowOf, sliceOf, List.get_eq_getElem]
    rw [List.getElem_take, List.getElem_drop]
  · intro halts hterm
    subst halts
    have hm : matchAt terminationKeywords (lowerList text) p = some L :=
      scanAux_mem _ _ _ _ _ _ h
    have h11 : matchAt terminationKeywords (lowerList text) p = some 11 := by
      unfold matchAt terminationKeywords
      simp [hterm]
    rw [h11] at hm
    exact (Option.some.inj hm).symm

/-- Witness for C6 amended: a text with termination at position 0, whose
single scanner match yields the claimed window. -/
theorem c6_window_bounds_witness :
    windowOf "termination applies".data 0 11 ∈
      windowsFor terminationKeywords "termination applies".data ∧
    (windowOf "termination applies".data 0 11).length =
      min (0 + 11 + 500) ("termination applies".data).length - (0 - 200) ∧
    (∀ j, ∀ hj : j < (windowOf "termination applies".data 0 11).length,
      ∃ hx : 0 - 200 + j < ("termination applies".data).length,
        (windowOf "termination applies".data 0 11).get ⟨j, hj⟩ =
          ("termination applies".data).get ⟨0 - 200 + j, hx⟩) ∧
    (terminationKeywords = terminationKeywords →
      listStartsWith ((lowerList "termination applies".data).drop 0)
        "termination".data = true → 11 = 11) :=
  c6_window_bounds terminationKeywords "termination applies".data 0 11
    (by set_option maxRecDepth 10000 in decide)

/-- C10: for every input text (the empty string included) the clauses
dict of extract_clauses is keyed by exactly the seven fixed categories in
definition order; every table category is present as an entry whose value
is None exactly when the category has no keyword occurrence (absent
categories are present with a null value, not omitted); and
missing_clauses is a sublist of the ordered key sequence, so it lists
absent categories in the fixed definition order. -/
theorem c10_fixed_category_keys (text : List Char) :
    (extract_clauses text).clauses.map Prod.fst =
      ["payment".data, "termination".data, "confidentiality".data,
       "intellectual_property".data, "governing_law".data, "liability".data,
       "data_protection".data] ∧
    (∀ p ∈ CLAUSE_KEYWORDS,
      (p.1, extractForCategory text p.2) ∈ (extract_clauses text).clauses ∧
      (extractForCategory text p.2 = none ↔ ¬ kwOccurs p.2 text)) ∧
    (extract_clauses text).missing_clauses.Sublist
      ((extract_clauses text).clauses.map Prod.fst) := by
  refine ⟨?_, ?_, ?_⟩
  · rw [clauses_keys]
    decide
  · intro p hp
    constructor
    · unfold extract_clauses
      exact List.mem_map.mpr ⟨p, hp, rfl⟩
    · exact extractForCategory_none_iff text p.2 (clause_keywords_nonempty p hp)
  · unfold extract_clauses
    exact List.Sublist.map Prod.fst (List.filter_sublist _)

/-! ## Postprocessor lemmas -/

/-- Bounds of round(uniform(0.75, 0.92), 2): for any unit draw the
rounded confidence stays within [0.75, 0.92]. -/
lemma confidenceOf_bounds (u : ℚ) (h0 : 0 ≤ u) (h1 : u ≤ 1) :
    3 / 4 ≤ confidenceOf u ∧ confidenceOf u ≤ 23 / 25 := by
  unfold confidenceOf round2
  have hy1 : (75 : ℚ) ≤ 100 * (3 / 4 + u * (23 / 25 - 3 / 4)) := by linarith
  have hy2 : 100 * (3 / 4 + u * (23 / 25 - 3 / 4)) ≤ 92 := by linarith
  have hr1 : (75 : ℤ) ≤ round (100 * (3 / 4 + u * (23 / 25 - 3 / 4))) := by
    rw [round_eq, Int.le_floor]
    push_cast
    linarith
  have hr2 : round (100 * (3 / 4 + u * (23 / 25 - 3 / 4))) ≤ 92 := by
    rw [round_eq]
    have hlt : ⌊100 * (3 / 4 + u * (23 / 25 - 3 / 4)) + 1 / 2⌋ < 93 := by
      rw [Int.floor_lt]
      push_cast
      linarith
    omega
  constructor
  · have hc : ((75 : ℤ) : ℚ) ≤
        ((round (100 * (3 / 4 + u * (23 / 25 - 3 / 4))) : ℤ) : ℚ) := by
      exact_mod_cast hr1
    push_cast at hc
    linarith
  · have hc : ((round (100 * (3 / 4 + u * (23 / 25 - 3 / 4))) : ℤ) : ℚ) ≤
        ((92 : ℤ) : ℚ) := by
      exact_mod_cast hr2
    push_cast at hc
    linarith

/-- Every finding emitted by the postprocessor carries the keyword-rule
severity of its own issue text and a confidence produced by some single
generator draw. -/
lemma postprocessFindings_mem (rng : Nat → ℚ) :
    ∀ (domains : List (List Char × List (List Char))) (c : Nat) (d : List Char)
      (fs : List Finding), (d, fs) ∈ postprocessFindings rng c domains →
      ∀ f ∈ fs, f.severity = severityOf f.issue ∧
        ∃ k, f.confidence = confidenceOf (rng k) := by
  intro domains
  induction domains with
  | nil =>
      intro c d fs h
      simp [postprocessFindings] at h
  | cons q rest ih =>
      obtain ⟨dname, issues⟩ := q
      intro c d fs h f hf
      simp only [postprocessFindings] at h
      rcases List.mem_cons.mp h with h1 | h1
      · have hfs : fs = postprocessDomain rng c dname issues := congrArg Prod.snd h1
        rw [hfs] at hf
        unfold postprocessDomain at hf
        obtain ⟨pr, hpr, hpr2⟩ := List.mem_map.mp hf
        rw [← hpr2]
        exact ⟨rfl, ⟨c + pr.1, rfl⟩⟩
      · exact ih _ _ _ h1 f hf

/-- C9: the postprocessor assigns the fixed three-tier keyword severity
(HIGH on any of terminate/penalty/liability/breach/uncapped, else MEDIUM
on any of auto-renew/increase/unclear, else LOW, checked on the
lower-cased issue) to every finding it emits; the three sample issues
classify HIGH, MEDIUM and LOW respectively; and with unit generator
draws every finding confidence lies in [0.75, 0.92]. -/
theorem c9_postprocessor (domains : List (List Char × List (List Char)))
    (rng : Nat → ℚ) (c : Nat) (hr : ∀ n, 0 ≤ rng n ∧ rng n ≤ 1) :
    (∀ d fs, (d, fs) ∈ postprocessFindings rng c domains → ∀ f ∈ fs,
      f.severity = severityOf f.issue ∧ 3 / 4 ≤ f.confidence ∧ f.confidence ≤ 23 / 25) ∧
    (∀ issue, severityOf issue = "HIGH".data ↔
      highKeywords.any (fun k => containsSub (lowerList issue) k) = true) ∧
    (∀ issue, severityOf issue = "MEDIUM".data ↔
      (highKeywords.any (fun k => containsSub (lowerList issue) k) = false ∧
       mediumKeywords.any (fun k => containsSub (lowerList issue) k) = true)) ∧
    (∀ issue, severityOf issue = "LOW".data ↔
      (highKeywords.any (fun k => containsSub (lowerList issue) k) = false ∧
       mediumKeywords.any (fun k => containsSub (lowerList issue) k) = false)) ∧
    severityOf "uncapped liability".data = "HIGH".data ∧
    severityOf "auto-renew".data = "MEDIUM".data ∧
    severityOf "standard 30-day notice".data = "LOW".data := by
  refine ⟨?_, ?_, ?_, ?_, by decide, by decide, by decide⟩
  · intro d fs h f hf
    obtain ⟨hsev, k, hconf⟩ := postprocessFindings_mem rng domains c d fs h f hf
    refine ⟨hsev, ?_, ?_⟩
    · rw [hconf]
      exact (confidenceOf_bounds (rng k) (hr k).1 (hr k).2).1
    · rw [hconf]
      exact (confidenceOf_bounds (rng k) (hr k).1 (hr k).2).2
  · intro issue
    cases hh : highKeywords.any (fun k => containsSub (lowerList issue) k) <;>
      cases hm2 : mediumKeywords.any (fun k => containsSub (lowerList issue) k) <;>
        simp [severityOf, hh, hm2]
  · intro issue
    cases hh : highKeywords.any (fun k => containsSub (lowerList issue) k) <;>
      cases hm2 : mediumKeywords.any (fun k => containsSub (lowerList issue) k) <;>
        simp [severityOf, hh, hm2]
  · intro issue
    cases hh : highKeywords.any (fun k => containsSub (lowerList issue) k) <;>
      cases hm2 : mediumKeywords.any (fun k => containsSub (lowerList issue) k) <;>
        simp [severityOf, hh, hm2]

/-- Witness for C9 at a one-domain input and the constant half draw. -/
theorem c9_postprocessor_witness :
    (∀ d fs, (d, fs) ∈ postprocessFindings (fun _ => 1 / 2) 0
        [("legal".data, ["uncapped liability".data])] → ∀ f ∈ fs,
      f.severity = severityOf f.issue ∧ 3 / 4 ≤ f.confidence ∧ f.confidence ≤ 23 / 25) ∧
    (∀ issue, severityOf issue = "HIGH".data ↔
      highKeywords.any (fun k => containsSub (lowerList issue) k) = true) ∧
    (∀ issue, severityOf issue = "MEDIUM".data ↔
      (highKeywords.any (fun k => containsSub (lowerList issue) k) = false ∧
       mediumKeywords.any (fun k => containsSub (lowerList issue) k) = true)) ∧
    (∀ issue, severityOf issue = "LOW".data ↔
      (highKeywords.any (fun k => containsSub (lowerList issue) k) = false ∧
       mediumKeywords.any (fun k => containsSub (lowerList issue) k) = false)) ∧
    severityOf "uncapped liability".data = "HIGH".data ∧
    severityOf "auto-renew".data = "MEDIUM".data ∧
    severityOf "standard 30-day notice".data = "LOW".data :=
  c9_postprocessor [("legal".data, ["uncapped liability".data])] (fun _ => 1 / 2) 0
    (fun _ => ⟨by norm_num, by norm_num⟩)

end LDA
